import Mathlib

/-!
# Verification of the arXiv paper-import plugin core (`src/main.ts`)

Shallow embedding of the search-and-disambiguation core of the plugin:
the query normalizer (`sanitizeTitle`), the identifier extractor
(`extractArxivId`), the metadata fetcher (`fetchArxivMetadata`), the
search client with retry (`searchArxivByTitle`), the ranker
(`getSuggestions`) and the clipboard orchestration
(`createNoteFromClipboard` / `performSearch`), together with proofs of
the specification's claims about them.

Strings are modeled as Lean `String`s and manipulated through their
underlying `List Char`.  JavaScript semantics are modeled as follows:
* `toLowerCase` is modeled on the ASCII range (`jsToLower`);
* the `\s` character class is modeled by the six ASCII whitespace
  characters (`isWsJs`);
* `new Date(s).getFullYear()` is modeled for ISO-8601 `YYYY-…` date
  strings, any other input giving an invalid date whose year is `NaN`,
  modeled as `none` (`jsDateYear`);
* numbers produced by the similarity metric are exact rationals (the
  concrete values arising here are far from the binary-float rounding
  boundaries of the 0.3 threshold comparison).
-/

namespace ObsidianPapers

/-- Model of JS `String.prototype.toLowerCase`, restricted to the ASCII
letters (the only characters whose case matters in this development). -/
def jsToLower (c : Char) : Char :=
  match c with
  | 'A' => 'a' | 'B' => 'b' | 'C' => 'c' | 'D' => 'd' | 'E' => 'e'
  | 'F' => 'f' | 'G' => 'g' | 'H' => 'h' | 'I' => 'i' | 'J' => 'j'
  | 'K' => 'k' | 'L' => 'l' | 'M' => 'm' | 'N' => 'n' | 'O' => 'o'
  | 'P' => 'p' | 'Q' => 'q' | 'R' => 'r' | 'S' => 's' | 'T' => 't'
  | 'U' => 'u' | 'V' => 'v' | 'W' => 'w' | 'X' => 'x' | 'Y' => 'y'
  | 'Z' => 'z'
  | c => c

/-- Model of the JS regex class `\s` (ASCII part): space, tab, newline,
carriage return, vertical tab, form feed. -/
def isWsJs (c : Char) : Bool :=
  c == ' ' || c == '\t' || c == '\n' || c == '\r' || c == '\x0b' || c == '\x0c'

/-- The character map of `replace(/[-:,.]/g, ' ')`: hyphen, colon, comma
and period become a single space. -/
def punctRepl (c : Char) : Char :=
  if c = '-' ∨ c = ':' ∨ c = ',' ∨ c = '.' then ' ' else c

/-- `replace(/\s+/g, ' ')`: collapse every maximal run of whitespace to a
single space character. -/
def collapseWs : List Char → List Char
  | [] => []
  | [c] => if isWsJs c then [' '] else [c]
  | c1 :: c2 :: cs =>
    if isWsJs c1 && isWsJs c2 then collapseWs (c2 :: cs)
    else (if isWsJs c1 then ' ' else c1) :: collapseWs (c2 :: cs)

/-- Remove trailing whitespace (the right half of JS `trim()`). -/
def trimEndL : List Char → List Char
  | [] => []
  | c :: cs =>
    match trimEndL cs with
    | [] => if isWsJs c then [] else [c]
    | d :: ds => c :: d :: ds

/-- Model of JS `String.prototype.trim()` (ASCII whitespace). -/
def trimL (l : List Char) : List Char :=
  trimEndL (l.dropWhile isWsJs)

/-- `sanitizeTitle` from `src/main.ts` (line 466):
`title.toLowerCase().replace(/[-:,.]/g, ' ').replace(/\s+/g, ' ').trim()`. -/
def sanitizeTitle (title : String) : String :=
  String.mk (trimL (collapseWs ((title.data.map jsToLower).map punctRepl)))

/-- The uppercase ASCII letters, the characters moved by `jsToLower`. -/
def upperList : List Char :=
  ['A','B','C','D','E','F','G','H','I','J','K','L','M',
   'N','O','P','Q','R','S','T','U','V','W','X','Y','Z']

/-- Whitespace canonicity: the list has no two adjacent whitespace
characters. -/
def noAdjWs : List Char → Bool
  | c1 :: c2 :: cs => (!(isWsJs c1 && isWsJs c2)) && noAdjWs (c2 :: cs)
  | _ => true

/-- Every whitespace character occurring in the list is a plain space. -/
def allWsSpace (l : List Char) : Prop := ∀ c ∈ l, isWsJs c = true → c = ' '

/-- The head of the list, when present, is not whitespace. -/
def headNotWs (l : List Char) : Prop := ∀ c, l.head? = some c → isWsJs c = false

/-- The last element of the list, when present, is not whitespace. -/
def lastNotWs (l : List Char) : Prop := ∀ c, l.getLast? = some c → isWsJs c = false

/-- The list-level body of `sanitizeTitle`. -/
def sanitizeList (l : List Char) : List Char :=
  trimL (collapseWs ((l.map jsToLower).map punctRepl))

/-- The character class of `replace(/[\\/:*?"<>|]/g, "")` in
`sanitizeFileName` (src/main.ts lines 680-686). -/
def forbiddenChars : List Char := ['\\', '/', ':', '*', '?', '"', '<', '>', '|']

/-- `replace(/:/g, " - ")`: every colon becomes space-hyphen-space. -/
def colonRepl (l : List Char) : List Char :=
  l.flatMap (fun c => if c = ':' then [' ', '-', ' '] else [c])

/-- Worker for `collapseWs2`; the flag records whether the scanner is
inside a whitespace run whose replacement space has already been
emitted. -/
def collapseWs2Go : Bool → List Char → List Char
  | _, [] => []
  | true, c :: cs =>
    if isWsJs c then collapseWs2Go true cs else c :: collapseWs2Go false cs
  | false, [c] => [c]
  | false, c1 :: c2 :: cs =>
    if isWsJs c1 then
      (if isWsJs c2 then ' ' :: collapseWs2Go true (c2 :: cs)
       else c1 :: collapseWs2Go false (c2 :: cs))
    else c1 :: collapseWs2Go false (c2 :: cs)

/-- `replace(/\s{2,}/g, " ")`: collapse every run of two or more
whitespace characters to a single space; an isolated whitespace
character is left unchanged. -/
def collapseWs2 (l : List Char) : List Char := collapseWs2Go false l

/-- `sanitizeFileName` from `src/main.ts` (lines 680-686):
`title.replace(/:/g, " - ").replace(/[\\/:*?"<>|]/g, "")
.replace(/\s{2,}/g, " ").trim()`. -/
def sanitizeFileName (title : String) : String :=
  String.mk (trimL (collapseWs2
    ((colonRepl title.data).filter (fun c => !forbiddenChars.contains c))))

/-- All bigrams (consecutive character pairs) of a character list, in
order: `substr(i, 2)` for `i` in `0 .. length - 2`. -/
def bigrams (l : List Char) : List (Char × Char) := l.zip l.tail

/-- The matching loop of `string-similarity-js`: walk the second
string's bigrams in order, consuming at most one occurrence of each
from the first string's multiset of bigrams. -/
def countBigramMatches : List (Char × Char) → List (Char × Char) → Nat
  | _, [] => 0
  | avail, b :: bs =>
    if b ∈ avail then 1 + countBigramMatches (avail.erase b) bs
    else countBigramMatches avail bs

/-- `compareTwoStrings`, the function imported from the
`string-similarity-js` dependency (Sørensen-Dice bigram similarity with
`substringLength = 2` and `caseSensitive = false`); similarity values
are modeled as exact rationals. -/
def compareTwoStrings (str1 str2 : String) : ℚ :=
  if (str1.data.map jsToLower).length < 2 ∨ (str2.data.map jsToLower).length < 2 then 0
  else (2 * countBigramMatches (bigrams (str1.data.map jsToLower))
      (bigrams (str2.data.map jsToLower)) : ℚ) /
    (((str1.data.map jsToLower).length : ℚ) + ((str2.data.map jsToLower).length : ℚ) - 2)

/-- The `PaperMetadata` record of `src/main.ts` (lines 459-464).  The
`year` field is `none` when the JS number is `NaN` (the result of
`getFullYear()` on an invalid date) and `some y` otherwise. -/
structure PaperMetadata where
  title : String
  authors : List String
  year : Option Int
  url : String
deriving DecidableEq

/-- The similarity score `getSuggestions` computes for one candidate:
`compareTwoStrings(sanitizeTitle(choice.title), sanitized)` where
`sanitized = sanitizeTitle(query)`. -/
def choiceScore (query : String) (c : PaperMetadata) : ℚ :=
  compareTwoStrings (sanitizeTitle c.title) (sanitizeTitle query)

/-- Stable descending insertion: `x` moves left exactly past the
elements with strictly smaller score. -/
def insertDesc {α : Type} (f : α → ℚ) (x : α) : List α → List α
  | [] => [x]
  | y :: ys => if f y ≤ f x then x :: y :: ys else y :: insertDesc f x ys

/-- Model of `Array.prototype.sort` with the comparator
`(a, b) => f(b) - f(a)`: a stable descending sort.  ECMAScript requires
`sort` to be stable, and a stable sort under a consistent comparator
has a uniquely determined output, so stable insertion sort is a
faithful model. -/
def sortDesc {α : Type} (f : α → ℚ) : List α → List α
  | [] => []
  | x :: xs => insertDesc f x (sortDesc f xs)

/-- `getSuggestions` from `src/main.ts` (lines 751-769).  The instance
fields read by the method (`loading`, `hasSearched`, `choices`) are
passed explicitly; the `this.currentInput = query` store does not
affect the returned list and is omitted. -/
def getSuggestions (loading hasSearched : Bool) (choices : List PaperMetadata)
    (query : String) : List PaperMetadata :=
  if loading || !hasSearched || choices.isEmpty then []
  else
    sortDesc (choiceScore query)
      (choices.filter (fun choice => decide ((3 : ℚ)/10 < choiceScore query choice)))

/-- Split a character list at single spaces (the token structure of a
normalized title, whose whitespace is exactly single spaces). -/
def splitTokensGo : List Char → List Char → List (List Char)
  | acc, [] => [acc.reverse]
  | acc, c :: cs =>
    if c = ' ' then acc.reverse :: splitTokensGo [] cs
    else splitTokensGo (c :: acc) cs

/-- The tokens (space-separated words) of a string after normalization
by `sanitizeTitle`. -/
def normTokens (s : String) : List (List Char) :=
  splitTokensGo [] (sanitizeTitle s).data

/-- Two strings share no tokens after normalization. -/
def noSharedTokens (s t : String) : Bool :=
  (normTokens s).all (fun tok => !(normTokens t).contains tok)

/-- Match a literal character sequence at the head of the input,
returning the remainder on success. -/
def eatLit : List Char → List Char → Option (List Char)
  | [], l => some l
  | _ :: _, [] => none
  | p :: ps, c :: cs => if c = p then eatLit ps cs else none

/-- The path-segment alternation `(abs|pdf|html)`: the three
alternatives begin with distinct characters, so JS's ordered
backtracking alternation is equivalent to this first-match choice. -/
def eatSeg (l : List Char) : Option (List Char) :=
  match eatLit "abs".data l with
  | some r => some r
  | none =>
    match eatLit "pdf".data l with
    | some r => some r
    | none => eatLit "html".data l

/-- Consume exactly `n` decimal digits, returning them and the rest. -/
def eatDigits : Nat → List Char → Option (List Char × List Char)
  | 0, l => some ([], l)
  | _ + 1, [] => none
  | n + 1, c :: cs =>
    if c.isDigit then
      match eatDigits n cs with
      | some (ds, r) => some (c :: ds, r)
      | none => none
    else none

/-- Attempt the regex
`arxiv\.org\/(abs|pdf|html)\/(\d{4}\.\d{4,5})(v\d+)?` at the head of
the input and return capture group 2.  `\d{4,5}` is greedy (five digits
preferred to four); the trailing optional version group never affects
whether the match succeeds nor the captured identifier. -/
def matchIdAt (l : List Char) : Option (List Char) :=
  (eatLit "arxiv.org/".data l).bind fun l1 =>
  (eatSeg l1).bind fun l2 =>
  (eatLit "/".data l2).bind fun l3 =>
  (eatDigits 4 l3).bind fun p4 =>
  (eatLit ".".data p4.2).bind fun l5 =>
  match eatDigits 5 l5 with
  | some p6 => some (p4.1 ++ ('.' :: p6.1))
  | none =>
    match eatDigits 4 l5 with
    | some p7 => some (p4.1 ++ ('.' :: p7.1))
    | none => none

/-- Leftmost-match scan: JS regex matching tries each start position
from the left and returns the first success. -/
def scanArxiv : List Char → Option (List Char)
  | [] => none
  | c :: cs =>
    match matchIdAt (c :: cs) with
    | some r => some r
    | none => scanArxiv cs

/-- `extractArxivId` from `src/main.ts` (lines 469-472):
`url.match(/arxiv\.org\/(abs|pdf|html)\/(\d{4}\.\d{4,5})(v\d+)?/)`,
returning capture group 2 (`match[2]`) or `null`. -/
def extractArxivId (url : String) : Option String :=
  (scanArxiv url.data).map String.mk

/-- Attempt the bare-identifier regex `\d{4}\.\d{4,5}` at the head of
the input (used on the search response's `id` field). -/
def matchBareIdAt (l : List Char) : Option (List Char) :=
  (eatDigits 4 l).bind fun p1 =>
  (eatLit ".".data p1.2).bind fun l2 =>
  match eatDigits 5 l2 with
  | some p2 => some (p1.1 ++ ('.' :: p2.1))
  | none =>
    match eatDigits 4 l2 with
    | some p3 => some (p1.1 ++ ('.' :: p3.1))
    | none => none

/-- Leftmost-match scan for the bare-identifier regex. -/
def scanBareId : List Char → Option (List Char)
  | [] => none
  | c :: cs =>
    match matchBareIdAt (c :: cs) with
    | some r => some r
    | none => scanBareId cs

/-- The identifier-core shape `\d{4}\.\d{4,5}`: four digits, a dot,
then four or five digits — in particular no version suffix. -/
def IdShape (id : List Char) : Prop :=
  ∃ d1 d2, id = d1 ++ ('.' :: d2) ∧ d1.length = 4 ∧ (∀ c ∈ d1, c.isDigit = true) ∧
    (d2.length = 4 ∨ d2.length = 5) ∧ (∀ c ∈ d2, c.isDigit = true)

/-- One of the accepted path segments `abs`, `pdf`, `html`. -/
def IsSeg (seg : List Char) : Prop :=
  seg = "abs".data ∨ seg = "pdf".data ∨ seg = "html".data

/-- Spec-side reading of the extractor's pattern: the list begins with
the domain marker, a path segment, a slash and an identifier of shape
`\d{4}\.\d{4,5}` whose core is `id`; any following text (in particular
an optional version suffix) is absorbed into `suf`. -/
def HeadMatchId (l id : List Char) : Prop :=
  ∃ seg d1 d2 suf, IsSeg seg ∧ d1.length = 4 ∧ (∀ c ∈ d1, c.isDigit = true) ∧
    (d2.length = 4 ∨ d2.length = 5) ∧ (∀ c ∈ d2, c.isDigit = true) ∧
    id = d1 ++ ('.' :: d2) ∧
    l = "arxiv.org/".data ++ (seg ++ ('/' :: (d1 ++ ('.' :: (d2 ++ suf)))))

/-- A match of the extractor's pattern starts at the head of `l`. -/
def HeadMatch (l : List Char) : Prop := ∃ id, HeadMatchId l id

/-- One parsed `<entry>` element of an arXiv API response, carrying the
fields the plugin reads: the `title`, `author > name`, `published` and
`id` text contents (`none` models an absent element). -/
structure ArxivEntry where
  titleText : Option String
  authorNames : List String
  publishedText : Option String
  idText : Option String
deriving DecidableEq

/-- `?.textContent?.trim().replace(/\s+/g, " ") || ""`: the title text
is trimmed, then its whitespace runs are collapsed to single spaces; an
absent element yields the empty string (the `|| ""` fallback also fires
exactly on the empty string, so it is a no-op). -/
def normEntryTitle : Option String → String
  | none => ""
  | some s => String.mk (collapseWs (trimL s.data))

/-- Digit characters to the natural number they denote. -/
def digitsToNat (l : List Char) : Nat := l.foldl (fun a c => a * 10 + (c.toNat - 48)) 0

/-- Model of `new Date(s).getFullYear()`, restricted to ISO 8601
`YYYY-…` (or bare `YYYY`) date-time strings — the format of the arXiv
API's `published` field, e.g. "2017-06-12T17:57:49Z".  The year is the
leading 4-digit group; any other input produces an invalid date, whose
`getFullYear()` is `NaN`, modeled as `none`.  (The local-timezone
offset of `getFullYear` is not modeled.) -/
def jsDateYear (s : String) : Option Int :=
  if (s.data.take 4).length = 4 ∧ (∀ c ∈ s.data.take 4, c.isDigit = true) ∧
      (s.data.length = 4 ∨ s.data.get? 4 = some '-')
  then some (digitsToNat (s.data.take 4))
  else none

/-- Whether the single network call of `fetchArxivMetadata` threw (its
`catch` turns any error into `null`) or produced a parsed document with
a list of `<entry>` elements. -/
inductive FetchOutcome where
  | netError
  | ok (entries : List ArxivEntry)
deriving DecidableEq

/-- `fetchArxivMetadata` from `src/main.ts` (lines 658-678), as a
function of the response: `querySelector("entry")` is the first entry;
no entry — or a thrown request, caught — yields `null`; otherwise the
record is built with `url = "https://arxiv.org/abs/" + arxivId` from
the *input* identifier. -/
def fetchArxivMetadata (arxivId : String) : FetchOutcome → Option PaperMetadata
  | .netError => none
  | .ok entries =>
    match entries.head? with
    | none => none
    | some entry =>
      some { title := normEntryTitle entry.titleText
             authors := entry.authorNames
             year := jsDateYear (entry.publishedText.getD "")
             url := "https://arxiv.org/abs/" ++ arxivId }

/-- `entry.querySelector("id")?.textContent?.match(/\d{4}\.\d{4,5}/)?.[0] || ""`:
the first bare-identifier match in the `id` field, or "" when the field
is absent or contains no match. -/
def firstBareId : Option String → String
  | none => ""
  | some t =>
    match scanBareId t.data with
    | some l => String.mk l
    | none => ""

/-- The per-entry parsing step of `searchArxivByTitle`
(src/main.ts lines 860-868). -/
def parseSearchEntry (entry : ArxivEntry) : PaperMetadata :=
  { title := normEntryTitle entry.titleText
    authors := entry.authorNames
    year := jsDateYear (entry.publishedText.getD "")
    url := "https://arxiv.org/abs/" ++ firstBareId entry.idText }

/-- `pat` occurs at the head of `l`. -/
def seqAt : List Char → List Char → Bool
  | [], _ => true
  | _ :: _, [] => false
  | p :: ps, c :: cs => c == p && seqAt ps cs

/-- JS `String.prototype.includes`: `pat` occurs as a contiguous
subsequence of `l`. -/
def containsSeq (pat : List Char) : List Char → Bool
  | [] => seqAt pat []
  | c :: cs => seqAt pat (c :: cs) || containsSeq pat cs

/-- The network-error classifier of `searchArxivByTitle`
(src/main.ts lines 873-876): the error message contains one of the
substrings "ERR_CONNECTION_RESET", "ERR_NETWORK", "request". -/
def isNetworkError (msg : String) : Bool :=
  containsSeq "ERR_CONNECTION_RESET".data msg.data ||
  containsSeq "ERR_NETWORK".data msg.data ||
  containsSeq "request".data msg.data

/-- The outcome of one `requestUrl`-and-parse attempt inside the retry
loop: the parsed entry list, or the thrown error's message. -/
inductive AttemptResult where
  | success (entries : List ArxivEntry)
  | failure (errMsg : String)
deriving DecidableEq

inductive SearchOutcome where
  | results (records : List PaperMetadata)
  | thrown (errMsg : String)
deriving DecidableEq

/-- Observable trace of one `searchArxivByTitle` call: how many
attempts ran, the backoff delays slept between attempts (milliseconds,
in order), and the final outcome. -/
structure SearchTrace where
  attemptsMade : Nat
  delaysMs : List Nat
  outcome : SearchOutcome
deriving DecidableEq

/-- The retry loop of `searchArxivByTitle` (src/main.ts lines 851-889):
`attempt` counts from 1; a successful attempt returns the parsed
records; a failed attempt rethrows when the error is not
network-classified or the attempt is the last, and otherwise sleeps
`2^(attempt-1) * 1000` ms and retries.  `remaining` is the loop bound
`maxRetries - attempt + 1`, making the recursion structural; falling
out of the loop returns `[]` (reachable only when `maxRetries = 0`). -/
def searchGo (fetch : Nat → AttemptResult) (maxRetries : Nat) :
    Nat → Nat → Nat → List Nat → SearchTrace
  | _, 0, made, ds => ⟨made, ds.reverse, .results []⟩
  | attempt, rem + 1, made, ds =>
    match fetch attempt with
    | .success entries => ⟨made + 1, ds.reverse, .results (entries.map parseSearchEntry)⟩
    | .failure msg =>
      if !isNetworkError msg || attempt == maxRetries then
        ⟨made + 1, ds.reverse, .thrown msg⟩
      else
        searchGo fetch maxRetries (attempt + 1) rem (made + 1)
          ((2 ^ (attempt - 1) * 1000) :: ds)

/-- `searchArxivByTitle(title, maxRetries)` from `src/main.ts`
(lines 845-890), with default `maxRetries = 3` at every call site.  The
`title` parameter only determines the query URL (its transport-level
percent-escaping is not modeled, as no claim concerns it); each
attempt's network-and-parse behavior is supplied by the `fetch`
oracle. -/
def searchArxivByTitle (_title : String) (fetch : Nat → AttemptResult)
    (maxRetries : Nat) : SearchTrace :=
  searchGo fetch maxRetries 1 maxRetries 0 []

/-- Model of JS `String.prototype.trim` (ASCII whitespace). -/
def jsTrim (s : String) : String := String.mk (trimL s.data)

/-- The calls a clipboard import makes into the core components. -/
inductive CoreCall where
  | fetchMetadata (id : String)
  | search (query : String)
  | rank (query : String)
deriving DecidableEq

/-- `performSearch` (src/main.ts lines 790-814), abstracted to the core
calls it triggers: an identifier match closes the modal and routes the
input to `processArxivUrl` (one metadata fetch); otherwise
`searchArxivByTitle` runs and the subsequent suggestion refresh
re-ranks the fetched candidates (`getSuggestions`). -/
def performSearchCalls (input : String) : List CoreCall :=
  if input = "" then []
  else
    match extractArxivId input with
    | some id => [CoreCall.fetchMetadata id]
    | none => [CoreCall.search input, CoreCall.rank input]

/-- `createNoteFromClipboard` (src/main.ts lines 534-570) together with
`processArxivUrl` (lines 507-532): the core calls made for one
clipboard text, and the metadata record the identifier fast path hands
to note creation (`none` when the flow continues interactively or
aborts).  `resp` supplies the response of the single metadata fetch
when one happens.  An empty (falsy‑after‑trim) clipboard aborts; an
identifier match routes the trimmed text to `processArxivUrl`, which
re-extracts the identifier and fetches once; otherwise the import modal
auto-searches the trimmed clipboard text. -/
def clipboardFlow (clip : String) (resp : FetchOutcome) :
    List CoreCall × Option PaperMetadata :=
  if jsTrim clip = "" then ([], none)
  else if (extractArxivId clip).isSome then
    match extractArxivId (jsTrim clip) with
    | some id => ([CoreCall.fetchMetadata id], fetchArxivMetadata id resp)
    | none => ([], none)
  else
    (performSearchCalls (jsTrim clip), none)

theorem jsToLower_eq_of_not_mem (c : Char) (h : ¬ c ∈ upperList) : jsToLower c = c := by
  unfold jsToLower
  split
  all_goals first
    | rfl
    | (exfalso; apply h; decide)

theorem jsToLower_not_upper (c : Char) : ¬ jsToLower c ∈ upperList := by
  unfold jsToLower
  split
  all_goals intro hmem
  all_goals revert hmem
  all_goals first
    | decide
    | (intro hmem
       rcases (by simpa [upperList] using hmem :
         c = 'A' ∨ c = 'B' ∨ c = 'C' ∨ c = 'D' ∨ c = 'E' ∨ c = 'F' ∨ c = 'G' ∨ c = 'H' ∨
         c = 'I' ∨ c = 'J' ∨ c = 'K' ∨ c = 'L' ∨ c = 'M' ∨ c = 'N' ∨ c = 'O' ∨ c = 'P' ∨
         c = 'Q' ∨ c = 'R' ∨ c = 'S' ∨ c = 'T' ∨ c = 'U' ∨ c = 'V' ∨ c = 'W' ∨ c = 'X' ∨
         c = 'Y' ∨ c = 'Z') with
         h | h | h | h | h | h | h | h | h | h | h | h | h | h | h | h | h | h | h | h | h |
           h | h | h | h | h <;>
         simp_all)

theorem jsToLower_idem (c : Char) : jsToLower (jsToLower c) = jsToLower c :=
  jsToLower_eq_of_not_mem _ (jsToLower_not_upper c)

theorem punctRepl_not_upper (c : Char) (h : ¬ c ∈ upperList) :
    ¬ punctRepl c ∈ upperList := by
  unfold punctRepl
  split
  · decide
  · exact h

theorem punctRepl_idem (c : Char) : punctRepl (punctRepl c) = punctRepl c := by
  unfold punctRepl
  split
  · simp
  · rename_i h
    simp only [h, if_neg, not_false_iff]

theorem jsToLower_punctRepl_jsToLower (c : Char) :
    jsToLower (punctRepl (jsToLower c)) = punctRepl (jsToLower c) :=
  jsToLower_eq_of_not_mem _ (punctRepl_not_upper _ (jsToLower_not_upper c))

theorem noAdjWs_cons_cons (c1 c2 : Char) (cs : List Char) :
    noAdjWs (c1 :: c2 :: cs) = ((!(isWsJs c1 && isWsJs c2)) && noAdjWs (c2 :: cs)) := rfl

theorem noAdjWs_of_cons {c : Char} {l : List Char} (h : noAdjWs (c :: l) = true) :
    noAdjWs l = true := by
  cases l with
  | nil => rfl
  | cons d ds =>
    rw [noAdjWs_cons_cons, Bool.and_eq_true] at h
    exact h.2

theorem collapseWs_cons (c : Char) (cs : List Char) :
    ∃ rest, collapseWs (c :: cs) = (if isWsJs c then ' ' else c) :: rest := by
  induction cs generalizing c with
  | nil =>
    refine ⟨[], ?_⟩
    by_cases h : isWsJs c <;> simp [collapseWs, h]
  | cons c2 cs ih =>
    by_cases h12 : (isWsJs c && isWsJs c2) = true
    · obtain ⟨rest, hrest⟩ := ih c2
      rw [Bool.and_eq_true] at h12
      refine ⟨rest, ?_⟩
      rw [collapseWs, if_pos (by rw [Bool.and_eq_true]; exact h12)]
      rw [hrest, h12.1, h12.2]
      simp
    · exact ⟨collapseWs (c2 :: cs), by rw [collapseWs, if_neg h12]⟩

theorem mem_collapseWs {l : List Char} {c : Char} (h : c ∈ collapseWs l) :
    c ∈ l ∨ c = ' ' := by
  induction l using collapseWs.induct with
  | case1 => simp [collapseWs] at h
  | case2 d hd =>
    rw [collapseWs, if_pos hd] at h
    simp at h
    exact Or.inr h
  | case3 d hd =>
    rw [collapseWs, if_neg hd] at h
    simp at h
    simp [h]
  | case4 c1 c2 cs hcond ih =>
    rw [collapseWs, if_pos hcond] at h
    rcases ih h with h' | h'
    · exact Or.inl (List.mem_cons_of_mem _ h')
    · exact Or.inr h'
  | case5 c1 c2 cs hcond ih =>
    rw [collapseWs, if_neg hcond] at h
    rcases List.mem_cons.mp h with h' | h'
    · by_cases h1 : isWsJs c1 = true
      · right; simpa [h1] using h'
      · left; simp [h1] at h'; simp [h']
    · rcases ih h' with h'' | h''
      · exact Or.inl (List.mem_cons_of_mem _ h'')
      · exact Or.inr h''

theorem collapseWs_allWsSpace (l : List Char) : allWsSpace (collapseWs l) := by
  induction l using collapseWs.induct with
  | case1 => intro c hc; simp [collapseWs] at hc
  | case2 d hd =>
    intro c hc _
    rw [collapseWs, if_pos hd] at hc
    simpa using hc
  | case3 d hd =>
    intro c hc hws
    rw [collapseWs, if_neg hd] at hc
    simp at hc
    subst hc
    exact absurd hws hd
  | case4 c1 c2 cs hcond ih =>
    rw [collapseWs, if_pos hcond]
    exact ih
  | case5 c1 c2 cs hcond ih =>
    rw [collapseWs, if_neg hcond]
    intro c hc hws
    rcases List.mem_cons.mp hc with h' | h'
    · by_cases h1 : isWsJs c1 = true
      · simpa [h1] using h'
      · rw [if_neg h1] at h'
        subst h'
        exact absurd hws h1
    · exact ih c h' hws

theorem collapseWs_noAdjWs (l : List Char) : noAdjWs (collapseWs l) = true := by
  induction l using collapseWs.induct with
  | case1 => rfl
  | case2 d hd => rw [collapseWs, if_pos hd]; rfl
  | case3 d hd => rw [collapseWs, if_neg hd]; rfl
  | case4 c1 c2 cs hcond ih =>
    rw [collapseWs, if_pos hcond]
    exact ih
  | case5 c1 c2 cs hcond ih =>
    rw [collapseWs, if_neg hcond]
    obtain ⟨rest, hrest⟩ := collapseWs_cons c2 cs
    rw [hrest]
    rw [hrest] at ih
    rw [noAdjWs_cons_cons, Bool.and_eq_true]
    refine ⟨?_, ih⟩
    by_cases h1 : isWsJs c1 = true
    · by_cases h2 : isWsJs c2 = true
      · exact absurd (by rw [h1, h2]; rfl) hcond
      · simp [h1, h2]
    · simp [h1]

theorem collapseWs_fix {l : List Char} (h1 : noAdjWs l = true) (h2 : allWsSpace l) :
    collapseWs l = l := by
  induction l using collapseWs.induct with
  | case1 => rfl
  | case2 d hd =>
    have : d = ' ' := h2 d (by simp) hd
    subst this
    rfl
  | case3 d hd => rw [collapseWs, if_neg hd]
  | case4 c1 c2 cs hcond ih =>
    exfalso
    rw [noAdjWs_cons_cons, Bool.and_eq_true] at h1
    rw [hcond] at h1
    simpa using h1.1
  | case5 c1 c2 cs hcond ih =>
    rw [collapseWs, if_neg hcond]
    have htail : noAdjWs (c2 :: cs) = true := noAdjWs_of_cons h1
    have h2tail : allWsSpace (c2 :: cs) := fun c hc => h2 c (List.mem_cons_of_mem _ hc)
    rw [ih htail h2tail]
    by_cases h1' : isWsJs c1 = true
    · have : c1 = ' ' := h2 c1 (by simp) h1'
      subst this
      simp
    · simp [h1']

theorem mem_trimEndL {l : List Char} {c : Char} (h : c ∈ trimEndL l) : c ∈ l := by
  induction l with
  | nil => simp [trimEndL] at h
  | cons d ds ih =>
    rw [trimEndL] at h
    cases heq : trimEndL ds with
    | nil =>
      rw [heq] at h
      by_cases hd : isWsJs d = true
      · rw [if_pos hd] at h; cases h
      · rw [if_neg hd] at h; simp at h; simp [h]
    | cons e es =>
      rw [heq] at h
      rcases List.mem_cons.mp h with h' | h'
      · simp [h']
      · exact List.mem_cons_of_mem _ (ih (heq ▸ h'))

theorem trimEndL_lastNotWs (l : List Char) : lastNotWs (trimEndL l) := by
  induction l with
  | nil => intro c hc; cases hc
  | cons d ds ih =>
    intro c hc
    rw [trimEndL] at hc
    cases heq : trimEndL ds with
    | nil =>
      rw [heq] at hc
      by_cases hd : isWsJs d = true
      · rw [if_pos hd] at hc; cases hc
      · rw [if_neg hd] at hc
        simp at hc
        subst hc
        rwa [← Bool.not_eq_true]
    | cons e es =>
      rw [heq] at hc
      rw [List.getLast?_cons_cons] at hc
      exact ih c (heq ▸ hc)

theorem trimEndL_fix {l : List Char} (h : lastNotWs l) : trimEndL l = l := by
  induction l with
  | nil => rfl
  | cons d ds ih =>
    rw [trimEndL]
    cases ds with
    | nil =>
      have hd : isWsJs d = false := h d rfl
      simp [trimEndL, hd]
    | cons e es =>
      have htail : lastNotWs (e :: es) := by
        intro c hc
        exact h c (by rwa [List.getLast?_cons_cons])
      rw [ih htail]

theorem trimEndL_head? (l : List Char) :
    trimEndL l = [] ∨ (trimEndL l).head? = l.head? := by
  cases l with
  | nil => exact Or.inl rfl
  | cons d ds =>
    rw [trimEndL]
    cases heq : trimEndL ds with
    | nil =>
      by_cases hd : isWsJs d = true
      · rw [if_pos hd]; exact Or.inl rfl
      · rw [if_neg hd]; exact Or.inr rfl
    | cons e es => exact Or.inr rfl

theorem trimEndL_decomp (l : List Char) :
    ∃ w, l = trimEndL l ++ w ∧ ∀ c ∈ w, isWsJs c = true := by
  induction l with
  | nil => exact ⟨[], rfl, by simp⟩
  | cons d ds ih =>
    obtain ⟨w, hw, hws⟩ := ih
    rw [trimEndL]
    cases heq : trimEndL ds with
    | nil =>
      rw [heq] at hw
      by_cases hd : isWsJs d = true
      · rw [if_pos hd]
        refine ⟨d :: w, by simp only [List.nil_append] at hw ⊢; rw [← hw], ?_⟩
        intro c hc
        rcases List.mem_cons.mp hc with h' | h'
        · subst h'; exact hd
        · exact hws c h'
      · rw [if_neg hd]
        refine ⟨w, ?_, hws⟩
        simp only [List.nil_append] at hw
        rw [hw]
        rfl
    | cons e es =>
      rw [heq] at hw
      exact ⟨w, by rw [List.cons_append, ← hw], hws⟩

theorem noAdjWs_append_left {a b : List Char} (h : noAdjWs (a ++ b) = true) :
    noAdjWs a = true := by
  induction a with
  | nil => rfl
  | cons c a' ih =>
    cases a' with
    | nil => rfl
    | cons d a'' =>
      rw [List.cons_append, List.cons_append] at h
      rw [noAdjWs_cons_cons, Bool.and_eq_true] at h ⊢
      refine ⟨h.1, ih ?_⟩
      rw [List.cons_append]
      exact h.2

theorem dropWhile_headNotWs (l : List Char) : headNotWs (l.dropWhile isWsJs) := by
  induction l with
  | nil => intro c hc; cases hc
  | cons d ds ih =>
    by_cases hd : isWsJs d = true
    · rw [List.dropWhile_cons_of_pos hd]; exact ih
    · rw [List.dropWhile_cons_of_neg hd]
      intro c hc
      simp at hc
      subst hc
      rwa [← Bool.not_eq_true]

theorem dropWhile_noAdjWs {l : List Char} (h : noAdjWs l = true) :
    noAdjWs (l.dropWhile isWsJs) = true := by
  induction l with
  | nil => rfl
  | cons d ds ih =>
    by_cases hd : isWsJs d = true
    · rw [List.dropWhile_cons_of_pos hd]
      exact ih (noAdjWs_of_cons h)
    · rwa [List.dropWhile_cons_of_neg hd]

theorem trimL_headNotWs (l : List Char) : headNotWs (trimL l) := by
  intro c hc
  rcases trimEndL_head? (l.dropWhile isWsJs) with h | h
  · rw [trimL, h] at hc; cases hc
  · rw [trimL] at hc
    rw [h] at hc
    exact dropWhile_headNotWs l c hc

theorem trimL_lastNotWs (l : List Char) : lastNotWs (trimL l) :=
  trimEndL_lastNotWs (l.dropWhile isWsJs)

theorem trimL_fix {l : List Char} (h1 : headNotWs l) (h2 : lastNotWs l) :
    trimL l = l := by
  rw [trimL]
  have hdrop : l.dropWhile isWsJs = l := by
    cases l with
    | nil => rfl
    | cons d ds => exact List.dropWhile_cons_of_neg (by simp [h1 d rfl])
  rw [hdrop]
  exact trimEndL_fix h2

theorem mem_trimL {l : List Char} {c : Char} (h : c ∈ trimL l) : c ∈ l :=
  (List.dropWhile_sublist isWsJs).mem (mem_trimEndL h)

theorem trimL_noAdjWs {l : List Char} (h : noAdjWs l = true) :
    noAdjWs (trimL l) = true := by
  obtain ⟨w, hw, _⟩ := trimEndL_decomp (l.dropWhile isWsJs)
  have := dropWhile_noAdjWs h
  rw [hw] at this
  exact noAdjWs_append_left this

theorem trimL_allWsSpace {l : List Char} (h : allWsSpace l) :
    allWsSpace (trimL l) := fun c hc => h c (mem_trimL hc)

theorem map_id_of_mem {f : Char → Char} :
    ∀ {l : List Char}, (∀ c ∈ l, f c = c) → l.map f = l
  | [], _ => rfl
  | c :: cs, h => by
    rw [List.map_cons, h c (by simp), map_id_of_mem (fun d hd => h d (List.mem_cons_of_mem _ hd))]

theorem sanitizeTitle_eq_mk (s : String) :
    sanitizeTitle s = String.mk (sanitizeList s.data) := rfl

theorem sanitizeList_chars {l : List Char} {c : Char} (h : c ∈ sanitizeList l) :
    (∃ a, c = punctRepl (jsToLower a)) ∨ c = ' ' := by
  rcases mem_collapseWs (mem_trimL h) with h' | h'
  · rcases List.mem_map.mp h' with ⟨b, hb, hbc⟩
    rcases List.mem_map.mp hb with ⟨a, _, hab⟩
    exact Or.inl ⟨a, by rw [← hbc, ← hab]⟩
  · exact Or.inr h'

theorem sanitizeList_idem (l : List Char) :
    sanitizeList (sanitizeList l) = sanitizeList l := by
  have hlower : (sanitizeList l).map jsToLower = sanitizeList l := by
    apply map_id_of_mem
    intro c hc
    rcases sanitizeList_chars hc with ⟨a, ha⟩ | ha
    · rw [ha]; exact jsToLower_punctRepl_jsToLower a
    · rw [ha]; rfl
  have hpunct : (sanitizeList l).map punctRepl = sanitizeList l := by
    apply map_id_of_mem
    intro c hc
    rcases sanitizeList_chars hc with ⟨a, ha⟩ | ha
    · rw [ha]; exact punctRepl_idem (jsToLower a)
    · rw [ha]; rfl
  have hadj : noAdjWs (sanitizeList l) = true :=
    trimL_noAdjWs (collapseWs_noAdjWs _)
  have hsp : allWsSpace (sanitizeList l) :=
    trimL_allWsSpace (collapseWs_allWsSpace _)
  rw [sanitizeList, hlower, hpunct, collapseWs_fix hadj hsp]
  exact trimL_fix (trimL_headNotWs _) (trimL_lastNotWs _)

/-- **C9.** The query normalizer is idempotent:
`sanitizeTitle (sanitizeTitle x) = sanitizeTitle x` for every input
string, where `sanitizeTitle` lowercases, replaces hyphen, colon, comma
and period by a space, collapses whitespace runs to one space, and trims
both ends (src/main.ts line 466). -/
theorem sanitizeTitle_idempotent (x : String) :
    sanitizeTitle (sanitizeTitle x) = sanitizeTitle x := by
  show String.mk (sanitizeList (sanitizeList x.data)) = String.mk (sanitizeList x.data)
  rw [sanitizeList_idem]

theorem mem_collapseWs2Go {c : Char} :
    ∀ (b : Bool) (l : List Char), c ∈ collapseWs2Go b l → c ∈ l ∨ c = ' '
  | b, [], h => by cases b <;> simp [collapseWs2Go] at h
  | true, d :: ds, h => by
    rw [collapseWs2Go] at h
    by_cases hd : isWsJs d = true
    · rw [if_pos hd] at h
      rcases mem_collapseWs2Go true ds h with h' | h'
      · exact Or.inl (List.mem_cons_of_mem _ h')
      · exact Or.inr h'
    · rw [if_neg hd] at h
      rcases List.mem_cons.mp h with h' | h'
      · simp [h']
      · rcases mem_collapseWs2Go false ds h' with h'' | h''
        · exact Or.inl (List.mem_cons_of_mem _ h'')
        · exact Or.inr h''
  | false, [d], h => by
    rw [collapseWs2Go] at h
    simp at h
    simp [h]
  | false, d1 :: d2 :: ds, h => by
    rw [collapseWs2Go] at h
    by_cases hd1 : isWsJs d1 = true
    · rw [if_pos hd1] at h
      by_cases hd2 : isWsJs d2 = true
      · rw [if_pos hd2] at h
        rcases List.mem_cons.mp h with h' | h'
        · exact Or.inr h'
        · rcases mem_collapseWs2Go true (d2 :: ds) h' with h'' | h''
          · exact Or.inl (List.mem_cons_of_mem _ h'')
          · exact Or.inr h''
      · rw [if_neg hd2] at h
        rcases List.mem_cons.mp h with h' | h'
        · simp [h']
        · rcases mem_collapseWs2Go false (d2 :: ds) h' with h'' | h''
          · exact Or.inl (List.mem_cons_of_mem _ h'')
          · exact Or.inr h''
    · rw [if_neg hd1] at h
      rcases List.mem_cons.mp h with h' | h'
      · simp [h']
      · rcases mem_collapseWs2Go false (d2 :: ds) h' with h'' | h''
        · exact Or.inl (List.mem_cons_of_mem _ h'')
        · exact Or.inr h''

theorem mem_collapseWs2 {l : List Char} {c : Char} (h : c ∈ collapseWs2 l) :
    c ∈ l ∨ c = ' ' := mem_collapseWs2Go false l h

/-- **C10.** Every character of `sanitizeFileName`'s output is outside
the forbidden file-name set `\ / : * ? " < > |`: colons are first
rewritten to " - " and the remaining forbidden characters are deleted,
and the later whitespace-collapsing and trimming steps only keep input
characters or introduce plain spaces. -/
theorem sanitizeFileName_no_forbidden (s : String) (c : Char)
    (h : c ∈ (sanitizeFileName s).data) : forbiddenChars.contains c = false := by
  have h' : c ∈ trimL (collapseWs2
      ((colonRepl s.data).filter (fun c => !forbiddenChars.contains c))) := h
  rcases mem_collapseWs2 (mem_trimL h') with h'' | h''
  · have := List.of_mem_filter h''
    simpa using this
  · subst h''
    decide

/-- Witness for C10 at the concrete input "a:b". -/
theorem sanitizeFileName_no_forbidden_witness :
    ('a' ∈ (sanitizeFileName "a:b").data) ∧ forbiddenChars.contains 'a' = false :=
  ⟨by decide, sanitizeFileName_no_forbidden "a:b" 'a' (by decide)⟩

theorem mem_insertDesc {α : Type} (f : α → ℚ) (x z : α) :
    ∀ l : List α, z ∈ insertDesc f x l ↔ z = x ∨ z ∈ l
  | [] => by simp [insertDesc]
  | y :: ys => by
    rw [insertDesc]
    by_cases h : f y ≤ f x
    · rw [if_pos h]
      simp
    · rw [if_neg h]
      simp only [List.mem_cons, mem_insertDesc f x z ys]
      tauto

theorem insertDesc_pairwise {α : Type} (f : α → ℚ) (x : α) :
    ∀ l : List α, l.Pairwise (fun a b => f b ≤ f a) →
      (insertDesc f x l).Pairwise (fun a b => f b ≤ f a)
  | [], _ => by simp [insertDesc]
  | y :: ys, hp => by
    rw [insertDesc]
    rcases List.pairwise_cons.mp hp with ⟨hy, hys⟩
    by_cases h : f y ≤ f x
    · rw [if_pos h]
      refine List.pairwise_cons.mpr ⟨?_, hp⟩
      intro z hz
      rcases List.mem_cons.mp hz with h' | h'
      · subst h'; exact h
      · exact le_trans (hy z h') h
    · rw [if_neg h]
      refine List.pairwise_cons.mpr ⟨?_, insertDesc_pairwise f x ys hys⟩
      intro z hz
      rcases (mem_insertDesc f x z ys).mp hz with h' | h'
      · subst h'; exact le_of_lt (not_le.mp h)
      · exact hy z h'

theorem sortDesc_pairwise {α : Type} (f : α → ℚ) :
    ∀ l : List α, (sortDesc f l).Pairwise (fun a b => f b ≤ f a)
  | [] => by simp [sortDesc]
  | x :: xs => insertDesc_pairwise f x _ (sortDesc_pairwise f xs)

theorem mem_sortDesc {α : Type} (f : α → ℚ) (z : α) :
    ∀ l : List α, z ∈ sortDesc f l ↔ z ∈ l
  | [] => Iff.rfl
  | x :: xs => by
    rw [sortDesc, mem_insertDesc, mem_sortDesc f z xs]
    simp

theorem filter_insertDesc {α : Type} (f : α → ℚ) (x : α) (s : ℚ) :
    ∀ l : List α,
      (insertDesc f x l).filter (fun a => decide (f a = s)) =
        if f x = s then x :: l.filter (fun a => decide (f a = s))
        else l.filter (fun a => decide (f a = s))
  | [] => by
    by_cases hx : f x = s <;> simp [insertDesc, hx]
  | y :: ys => by
    rw [insertDesc]
    by_cases h : f y ≤ f x
    · rw [if_pos h]
      by_cases hx : f x = s <;> simp [hx, List.filter_cons]
    · rw [if_neg h]
      rw [List.filter_cons, List.filter_cons, filter_insertDesc f x s ys]
      by_cases hx : f x = s
      · have hy : ¬ f y = s := by
          intro hy
          exact h (le_of_eq (hy.trans hx.symm))
        simp [hx, hy, List.filter_cons]
      · by_cases hy : f y = s <;> simp [hx, hy, List.filter_cons]

theorem filter_sortDesc {α : Type} (f : α → ℚ) (s : ℚ) :
    ∀ l : List α,
      (sortDesc f l).filter (fun a => decide (f a = s)) =
        l.filter (fun a => decide (f a = s))
  | [] => rfl
  | x :: xs => by
    rw [sortDesc, filter_insertDesc f x s, List.filter_cons]
    by_cases hx : f x = s <;> simp [hx, filter_sortDesc f s xs]

/-- **C7.** The ranker's output is ordered by non-increasing similarity
score against the normalized query (strictly descending across distinct
scores), and the sort is stable: for every score value, the
equal-scored candidates appear in the output in exactly their input
(server) order.  Stated for the active modal state (`loading = false`,
`hasSearched = true`); stability is expressed by filtering both the
output and the threshold-filtered input to any fixed score `s`. -/
theorem getSuggestions_sorted_stable (choices : List PaperMetadata) (query : String) :
    ((getSuggestions false true choices query).Pairwise
      (fun a b => choiceScore query b ≤ choiceScore query a)) ∧
    (∀ s : ℚ,
      (getSuggestions false true choices query).filter
          (fun c => decide (choiceScore query c = s)) =
        (choices.filter (fun choice => decide ((3 : ℚ)/10 < choiceScore query choice))).filter
          (fun c => decide (choiceScore query c = s))) := by
  unfold getSuggestions
  by_cases hempty : choices.isEmpty
  · have : choices = [] := List.isEmpty_iff.mp hempty
    subst this
    simp
  · rw [show (false || !true || choices.isEmpty) = choices.isEmpty by simp]
    rw [if_neg (by simpa using hempty)]
    exact ⟨sortDesc_pairwise _ _, fun s => filter_sortDesc _ s _⟩

/-- **C8 (amended).** A candidate whose similarity score against the
normalized query is at or below the fixed threshold 0.3 never appears
in the ranked output (the filter keeps only `score > 0.3`).  The
original claim's corollary — that sharing no tokens with the query
implies exclusion — is refuted by `getSuggestions_c8_counterexample`:
the bigram metric can exceed 0.3 across a token boundary. -/
theorem getSuggestions_threshold (choices : List PaperMetadata) (query : String)
    (c : PaperMetadata) (h : choiceScore query c ≤ 3/10) :
    ¬ c ∈ getSuggestions false true choices query := by
  intro hmem
  unfold getSuggestions at hmem
  by_cases hempty : choices.isEmpty
  · rw [show (false || !true || choices.isEmpty) = choices.isEmpty by simp,
      if_pos hempty] at hmem
    cases hmem
  · rw [show (false || !true || choices.isEmpty) = choices.isEmpty by simp,
      if_neg (by simpa using hempty)] at hmem
    have hmem' := (mem_sortDesc _ _ _).mp hmem
    have := (List.mem_filter.mp hmem').2
    simp only [decide_eq_true_eq] at this
    exact absurd this (not_lt.mpr h)

theorem choiceScore_zzzz_abcd :
    choiceScore "abcd" ⟨"zzzz", [], some 0, ""⟩ = 0 := by
  show compareTwoStrings (sanitizeTitle "zzzz") (sanitizeTitle "abcd") = 0
  rw [show sanitizeTitle "zzzz" = "zzzz" from rfl, show sanitizeTitle "abcd" = "abcd" from rfl]
  rw [compareTwoStrings, if_neg (by decide)]
  rw [show countBigramMatches (bigrams ("zzzz".data.map jsToLower))
      (bigrams ("abcd".data.map jsToLower)) = 0 from rfl]
  rw [show ("zzzz".data.map jsToLower).length = 4 from rfl,
    show ("abcd".data.map jsToLower).length = 4 from rfl]
  norm_num

theorem choiceScore_bcde_abcd :
    choiceScore "abcd" ⟨"bcde", [], some 0, ""⟩ = 2/3 := by
  show compareTwoStrings (sanitizeTitle "bcde") (sanitizeTitle "abcd") = 2/3
  rw [show sanitizeTitle "bcde" = "bcde" from rfl, show sanitizeTitle "abcd" = "abcd" from rfl]
  rw [compareTwoStrings, if_neg (by decide)]
  rw [show countBigramMatches (bigrams ("bcde".data.map jsToLower))
      (bigrams ("abcd".data.map jsToLower)) = 2 from rfl]
  rw [show ("bcde".data.map jsToLower).length = 4 from rfl,
    show ("abcd".data.map jsToLower).length = 4 from rfl]
  norm_num

/-- Witness for C8 at a concrete input: a fully unrelated title scores
0 and is excluded. -/
theorem getSuggestions_threshold_witness :
    (choiceScore "abcd" ⟨"zzzz", [], some 0, ""⟩ ≤ 3/10) ∧
    ¬ (⟨"zzzz", [], some 0, ""⟩ : PaperMetadata) ∈
      getSuggestions false true [⟨"zzzz", [], some 0, ""⟩] "abcd" :=
  ⟨by rw [choiceScore_zzzz_abcd]; norm_num,
   getSuggestions_threshold _ _ _ (by rw [choiceScore_zzzz_abcd]; norm_num)⟩

/-- **C8 counterexample.** The candidate titled "bcde" shares no token
with the query "abcd", yet its bigram similarity is 2/3 > 0.3, so it
appears in the ranked output — refuting the claim that a candidate with
no shared tokens never appears. -/
theorem getSuggestions_c8_counterexample :
    noSharedTokens "bcde" "abcd" = true ∧
    getSuggestions false true [⟨"bcde", [], some 0, ""⟩] "abcd" =
      [⟨"bcde", [], some 0, ""⟩] := by
  refine ⟨by decide, ?_⟩
  unfold getSuggestions
  rw [if_neg (by decide)]
  have hpass : decide ((3 : ℚ)/10 <
      choiceScore "abcd" (⟨"bcde", [], some 0, ""⟩ : PaperMetadata)) = true :=
    decide_eq_true (by rw [choiceScore_bcde_abcd]; norm_num)
  rw [List.filter_cons, hpass]
  rfl

theorem eatLit_sound : ∀ (p l r : List Char), eatLit p l = some r → l = p ++ r
  | [], l, r, h => by simpa [eatLit] using (by simpa [eatLit] using h : l = r) ▸ rfl
  | _ :: _, [], r, h => by simp [eatLit] at h
  | p :: ps, c :: cs, r, h => by
    rw [eatLit] at h
    by_cases hc : c = p
    · rw [if_pos hc] at h
      rw [List.cons_append, ← eatLit_sound ps cs r h, hc]
    · rw [if_neg hc] at h
      cases h

theorem eatLit_complete : ∀ (p r : List Char), eatLit p (p ++ r) = some r
  | [], r => rfl
  | p :: ps, r => by
    rw [List.cons_append, eatLit, if_pos rfl]
    exact eatLit_complete ps r

theorem eatDigits_sound :
    ∀ (n : Nat) (l ds r : List Char), eatDigits n l = some (ds, r) →
      l = ds ++ r ∧ ds.length = n ∧ ∀ c ∈ ds, c.isDigit = true
  | 0, l, ds, r, h => by
    rw [eatDigits] at h
    simp at h
    simp [h.1, h.2]
  | _ + 1, [], ds, r, h => by simp [eatDigits] at h
  | n + 1, c :: cs, ds, r, h => by
    rw [eatDigits] at h
    by_cases hc : c.isDigit = true
    · rw [if_pos hc] at h
      cases heq : eatDigits n cs with
      | none => rw [heq] at h; cases h
      | some p =>
        obtain ⟨ds', r'⟩ := p
        rw [heq] at h
        simp at h
        obtain ⟨hds, hr⟩ := h
        obtain ⟨hl, hlen, hdig⟩ := eatDigits_sound n cs ds' r' heq
        subst hds
        subst hr
        refine ⟨by rw [List.cons_append, hl], by simp [hlen], ?_⟩
        intro x hx
        rcases List.mem_cons.mp hx with h' | h'
        · subst h'; exact hc
        · exact hdig x h'
    · rw [if_neg hc] at h
      cases h

theorem eatDigits_complete :
    ∀ (ds r : List Char), (∀ c ∈ ds, c.isDigit = true) →
      eatDigits ds.length (ds ++ r) = some (ds, r)
  | [], r, _ => rfl
  | d :: ds, r, h => by
    rw [List.cons_append, List.length_cons, eatDigits, if_pos (h d (by simp)),
      eatDigits_complete ds r (fun c hc => h c (List.mem_cons_of_mem _ hc))]

theorem eatSeg_sound (l r : List Char) (h : eatSeg l = some r) :
    ∃ seg, IsSeg seg ∧ l = seg ++ r := by
  rw [eatSeg] at h
  cases h1 : eatLit "abs".data l with
  | some r1 =>
    rw [h1] at h
    simp at h
    subst h
    exact ⟨_, Or.inl rfl, eatLit_sound _ _ _ h1⟩
  | none =>
    rw [h1] at h
    cases h2 : eatLit "pdf".data l with
    | some r2 =>
      rw [h2] at h
      simp at h
      subst h
      exact ⟨_, Or.inr (Or.inl rfl), eatLit_sound _ _ _ h2⟩
    | none =>
      rw [h2] at h
      exact ⟨_, Or.inr (Or.inr rfl), eatLit_sound _ _ _ h⟩

theorem eatSeg_complete (seg r : List Char) (h : IsSeg seg) :
    eatSeg (seg ++ r) = some r := by
  rcases h with h | h | h <;> subst h <;> rfl

theorem matchIdAt_sound (l id : List Char) (h : matchIdAt l = some id) :
    HeadMatchId l id := by
  rw [matchIdAt] at h
  simp only [Option.bind_eq_some] at h
  obtain ⟨l1, h1, l2, h2, l3, h3, p4, h4, l5, h5, h⟩ := h
  obtain ⟨d1, l4⟩ := p4
  dsimp only at h5 h
  obtain ⟨seg, hseg, hl1⟩ := eatSeg_sound _ _ h2
  obtain ⟨hl3, hd1len, hd1dig⟩ := eatDigits_sound _ _ _ _ h4
  have hl : l = "arxiv.org/".data ++ (seg ++ ('/' :: (d1 ++ ('.' :: l5)))) := by
    rw [eatLit_sound _ _ _ h1, hl1, eatLit_sound _ _ _ h3, hl3,
      eatLit_sound _ _ _ h5]
    rfl
  cases h6 : eatDigits 5 l5 with
  | some p6 =>
    obtain ⟨d2, l6⟩ := p6
    rw [h6] at h
    simp at h
    obtain ⟨hl5, hd2len, hd2dig⟩ := eatDigits_sound _ _ _ _ h6
    exact ⟨seg, d1, d2, l6, hseg, hd1len, hd1dig, Or.inr hd2len, hd2dig,
      h.symm, by rw [hl, hl5]⟩
  | none =>
    rw [h6] at h
    cases h7 : eatDigits 4 l5 with
    | none => rw [h7] at h; cases h
    | some p7 =>
      obtain ⟨d2, l7⟩ := p7
      rw [h7] at h
      simp at h
      obtain ⟨hl5, hd2len, hd2dig⟩ := eatDigits_sound _ _ _ _ h7
      exact ⟨seg, d1, d2, l7, hseg, hd1len, hd1dig, Or.inl hd2len, hd2dig,
        h.symm, by rw [hl, hl5]⟩

theorem matchIdAt_isSome_of_headMatch {l : List Char} (h : HeadMatch l) :
    (matchIdAt l).isSome = true := by
  obtain ⟨id, seg, d1, d2, suf, hseg, hd1len, hd1dig, hd2len, hd2dig, hid, hl⟩ := h
  rw [matchIdAt, hl, eatLit_complete]
  simp only [Option.some_bind]
  rw [eatSeg_complete _ _ hseg]
  simp only [Option.some_bind]
  rw [show ('/' :: (d1 ++ ('.' :: (d2 ++ suf)))) = "/".data ++ (d1 ++ ('.' :: (d2 ++ suf)))
    from rfl, eatLit_complete]
  simp only [Option.some_bind]
  have h4step : eatDigits 4 (d1 ++ ('.' :: (d2 ++ suf))) = some (d1, '.' :: (d2 ++ suf)) := by
    rw [← hd1len]
    exact eatDigits_complete d1 _ hd1dig
  rw [h4step]
  simp only [Option.some_bind]
  rw [show ('.' :: (d2 ++ suf)) = ".".data ++ (d2 ++ suf) from rfl, eatLit_complete]
  simp only [Option.some_bind]
  cases h5 : eatDigits 5 (d2 ++ suf) with
  | some p => simp
  | none =>
    rcases hd2len with h4 | h5len
    · have h4b : eatDigits 4 (d2 ++ suf) = some (d2, suf) := by
        rw [← h4]
        exact eatDigits_complete d2 _ hd2dig
      simp [h4b]
    · exfalso
      have h5b : eatDigits 5 (d2 ++ suf) = some (d2, suf) := by
        rw [← h5len]
        exact eatDigits_complete d2 _ hd2dig
      rw [h5b] at h5
      cases h5

theorem scanArxiv_none_iff :
    ∀ l : List Char, scanArxiv l = none ↔ ∀ s, s <:+ l → matchIdAt s = none
  | [] => by
    constructor
    · intro _ s hs
      rw [List.suffix_nil.mp hs]
      rfl
    · intro _
      rfl
  | c :: cs => by
    rw [scanArxiv]
    cases hm : matchIdAt (c :: cs) with
    | some r =>
      constructor
      · intro h; cases h
      · intro h
        exact absurd (h _ (List.suffix_refl _)) (by rw [hm]; simp)
    | none =>
      rw [scanArxiv_none_iff cs]
      constructor
      · intro h s hs
        rcases List.suffix_cons_iff.mp hs with h' | h'
        · rw [h']; exact hm
        · exact h s h'
      · intro h s hs
        exact h s (hs.trans (List.suffix_cons c cs))

theorem scanArxiv_some :
    ∀ l id : List Char, scanArxiv l = some id →
      ∃ rest, rest <:+ l ∧ matchIdAt rest = some id ∧
        ∀ s, s <:+ l → rest.length < s.length → matchIdAt s = none
  | [], id, h => by cases h
  | c :: cs, id, h => by
    rw [scanArxiv] at h
    cases hm : matchIdAt (c :: cs) with
    | some r =>
      rw [hm] at h
      simp at h
      subst h
      refine ⟨c :: cs, List.suffix_refl _, hm, ?_⟩
      intro s hs hlen
      exact absurd hlen (not_lt.mpr (List.IsSuffix.length_le hs))
    | none =>
      rw [hm] at h
      obtain ⟨rest, hsuf, hmatch, hmin⟩ := scanArxiv_some cs id h
      refine ⟨rest, hsuf.trans (List.suffix_cons c cs), hmatch, ?_⟩
      intro s hs hlen
      rcases List.suffix_cons_iff.mp hs with h' | h'
      · rw [h']; exact hm
      · exact hmin s h' hlen

theorem idShape_no_v {id : List Char} (h : IdShape id) : ∀ c ∈ id, c ≠ 'v' := by
  obtain ⟨d1, d2, hid, _, hd1, _, hd2⟩ := h
  subst hid
  intro c hc
  rcases List.mem_append.mp hc with h' | h'
  · intro hv
    subst hv
    have := hd1 'v' h'
    simp at this
  · rcases List.mem_cons.mp h' with h'' | h''
    · subst h''
      decide
    · intro hv
      subst hv
      have := hd2 'v' h''
      simp at this

theorem matchIdAt_none_iff (t : List Char) : matchIdAt t = none ↔ ¬ HeadMatch t := by
  constructor
  · intro hn hm
    have := matchIdAt_isSome_of_headMatch hm
    rw [hn] at this
    cases this
  · intro hnm
    cases hmt : matchIdAt t with
    | none => rfl
    | some id => exact absurd ⟨id, matchIdAt_sound t id hmt⟩ hnm

/-- **C6.** `extractArxivId` returns the first arXiv identifier found
anywhere in the text as a substring (domain marker `arxiv.org/`, a path
segment among `abs`/`pdf`/`html`, a slash, then a
4-digit-dot-4-or-5-digit identifier), with any trailing version suffix
stripped (the returned identifier has the pure `\d{4}\.\d{4,5}` shape,
containing no `v`); it returns `none` exactly when no such substring
exists.  "First" is expressed by minimality: every strictly longer
suffix (i.e. every earlier start position) admits no match.  In
particular `".../abs/1706.03762v3"` yields `"1706.03762"`. -/
theorem extractArxivId_correct :
    (∀ s : String, extractArxivId s = none ↔ ¬ ∃ rest, rest <:+ s.data ∧ HeadMatch rest) ∧
    (∀ (s id : String), extractArxivId s = some id →
      IdShape id.data ∧ (∀ c ∈ id.data, c ≠ 'v') ∧
      ∃ rest, rest <:+ s.data ∧ HeadMatchId rest id.data ∧
        ∀ t, t <:+ s.data → rest.length < t.length → ¬ HeadMatch t) ∧
    extractArxivId "https://arxiv.org/abs/1706.03762v3" = some "1706.03762" := by
  refine ⟨?_, ?_, by decide⟩
  · intro s
    rw [extractArxivId, Option.map_eq_none', scanArxiv_none_iff]
    constructor
    · rintro h ⟨rest, hsuf, hm⟩
      exact (matchIdAt_none_iff rest).mp (h rest hsuf) hm
    · intro h t ht
      exact (matchIdAt_none_iff t).mpr (fun hm => h ⟨t, ht, hm⟩)
  · intro s id h
    rw [extractArxivId, Option.map_eq_some'] at h
    obtain ⟨lid, hscan, hmk⟩ := h
    have hdata : id.data = lid := by rw [← hmk]
    obtain ⟨rest, hsuf, hmatch, hmin⟩ := scanArxiv_some _ _ hscan
    have hhm : HeadMatchId rest lid := matchIdAt_sound _ _ hmatch
    have hshape : IdShape lid := by
      obtain ⟨seg, d1, d2, suf, _, hd1len, hd1dig, hd2len, hd2dig, hid, _⟩ := hhm
      exact ⟨d1, d2, hid, hd1len, hd1dig, hd2len, hd2dig⟩
    rw [hdata]
    refine ⟨hshape, idShape_no_v hshape, rest, hsuf, hhm, ?_⟩
    intro t ht hlen
    exact (matchIdAt_none_iff t).mp (hmin t ht hlen)

/-- Witness for C6: applying the characterization at a concrete input
embedded in longer text. -/
theorem extractArxivId_correct_witness :
    IdShape ("1706.03762" : String).data ∧
    (∀ c ∈ ("1706.03762" : String).data, c ≠ 'v') ∧
    ∃ rest, rest <:+ ("see https://arxiv.org/abs/1706.03762v3 ok" : String).data ∧
      HeadMatchId rest ("1706.03762" : String).data ∧
      ∀ t, t <:+ ("see https://arxiv.org/abs/1706.03762v3 ok" : String).data →
        rest.length < t.length → ¬ HeadMatch t :=
  extractArxivId_correct.2.1 "see https://arxiv.org/abs/1706.03762v3 ok" "1706.03762"
    (by decide)

/-- **C4 (amended).** When the `published` field is missing or its text
does not parse as a date, the fetched record's `year` is `NaN` (modeled
as `none`) — not `0` — and the call still succeeds: a record is
returned, no error is raised. -/
theorem fetchArxivMetadata_invalid_year (arxivId : String) (entry : ArxivEntry)
    (rest : List ArxivEntry)
    (h : entry.publishedText = none ∨ jsDateYear (entry.publishedText.getD "") = none) :
    ∃ m, fetchArxivMetadata arxivId (.ok (entry :: rest)) = some m ∧ m.year = none := by
  refine ⟨_, rfl, ?_⟩
  rcases h with h | h
  · show jsDateYear (entry.publishedText.getD "") = none
    rw [h]
    decide
  · exact h

/-- Witness for (amended) C4 at a concrete entry with empty `published`
text. -/
theorem fetchArxivMetadata_invalid_year_witness :
    ∃ m, fetchArxivMetadata "1706.03762"
        (.ok [⟨some "Attention Is All You Need", ["Ashish Vaswani"], some "", none⟩]) =
      some m ∧ m.year = none :=
  fetchArxivMetadata_invalid_year "1706.03762"
    ⟨some "Attention Is All You Need", ["Ashish Vaswani"], some "", none⟩ []
    (Or.inr (by decide))

/-- **C4 counterexample.** With an empty `published` text the call
succeeds and produces `year = NaN` (`none`) — not `0` as claimed. -/
theorem fetchArxivMetadata_c4_counterexample :
    (fetchArxivMetadata "1706.03762"
        (.ok [⟨some "Attention Is All You Need", ["Ashish Vaswani"], some "",
          some "http://arxiv.org/abs/1706.03762v5"⟩])).map PaperMetadata.year =
      some none ∧
    some (none : Option Int) ≠ some (some (0 : Int)) := by
  constructor
  · decide
  · decide

theorem matchBareIdAt_shape (l id : List Char) (h : matchBareIdAt l = some id) :
    IdShape id := by
  rw [matchBareIdAt] at h
  simp only [Option.bind_eq_some] at h
  obtain ⟨p1, h1, l2, h2, h⟩ := h
  obtain ⟨d1, l1⟩ := p1
  dsimp only at h2 h
  obtain ⟨_, hd1len, hd1dig⟩ := eatDigits_sound _ _ _ _ h1
  cases h5 : eatDigits 5 l2 with
  | some p5 =>
    obtain ⟨d2, l5⟩ := p5
    rw [h5] at h
    simp at h
    obtain ⟨_, hd2len, hd2dig⟩ := eatDigits_sound _ _ _ _ h5
    exact ⟨d1, d2, h.symm, hd1len, hd1dig, Or.inr hd2len, hd2dig⟩
  | none =>
    rw [h5] at h
    cases h4 : eatDigits 4 l2 with
    | none => rw [h4] at h; cases h
    | some p4 =>
      obtain ⟨d2, l4⟩ := p4
      rw [h4] at h
      simp at h
      obtain ⟨_, hd2len, hd2dig⟩ := eatDigits_sound _ _ _ _ h4
      exact ⟨d1, d2, h.symm, hd1len, hd1dig, Or.inl hd2len, hd2dig⟩

theorem scanBareId_shape : ∀ l id : List Char, scanBareId l = some id → IdShape id
  | [], _, h => by cases h
  | c :: cs, id, h => by
    rw [scanBareId] at h
    cases hm : matchBareIdAt (c :: cs) with
    | some r =>
      rw [hm] at h
      simp at h
      subst h
      exact matchBareIdAt_shape _ _ hm
    | none =>
      rw [hm] at h
      exact scanBareId_shape cs id h

theorem firstBareId_shape (t : Option String) :
    firstBareId t = "" ∨ IdShape (firstBareId t).data := by
  cases t with
  | none => exact Or.inl rfl
  | some s =>
    rw [firstBareId]
    cases hm : scanBareId s.data with
    | none => exact Or.inl rfl
    | some l => exact Or.inr (scanBareId_shape _ _ hm)

theorem string_data_append (s t : String) : (s ++ t).data = s.data ++ t.data := rfl

theorem fetchArxivMetadata_url (arxivId : String) (out : FetchOutcome)
    (m : PaperMetadata) (h : fetchArxivMetadata arxivId out = some m) :
    m.url = "https://arxiv.org/abs/" ++ arxivId := by
  cases out with
  | netError => cases h
  | ok entries =>
    rw [fetchArxivMetadata] at h
    cases entries with
    | nil => cases h
    | cons e es =>
      simp only [List.head?_cons] at h
      simp at h
      rw [← h]

/-- **C5 (amended).** `fetchArxivMetadata` builds `sourceUrl` as the
canonical base plus exactly the *input* identifier (never re-derived
from the response).  Each search-client record's `sourceUrl` is the
canonical base plus the first `\d{4}\.\d{4,5}` substring of the entry's
`id` field — which has the canonical identifier shape whenever such a
substring exists, but degenerates to the bare base (empty identifier)
when the `id` field has no new-style identifier (e.g. an old-style
arXiv id), refuting the unconditional shape guarantee of the original
claim. -/
theorem sourceUrl_canonical :
    (∀ (arxivId : String) (out : FetchOutcome) (m : PaperMetadata),
        fetchArxivMetadata arxivId out = some m →
        m.url = "https://arxiv.org/abs/" ++ arxivId) ∧
    (∀ (entries : List ArxivEntry) (m : PaperMetadata),
        m ∈ entries.map parseSearchEntry →
        ∃ d : String, m.url = "https://arxiv.org/abs/" ++ d ∧
          (d = "" ∨ IdShape d.data)) := by
  constructor
  · exact fetchArxivMetadata_url
  · intro entries m h
    rcases List.mem_map.mp h with ⟨entry, _, hm⟩
    exact ⟨firstBareId entry.idText, by rw [← hm]; rfl, firstBareId_shape entry.idText⟩

/-- Witness for (amended) C5: the fetcher's url at a concrete response
is the base plus the input identifier. -/
theorem sourceUrl_canonical_witness :
    (⟨"Attention Is All You Need", ["Ashish Vaswani"], none,
        "https://arxiv.org/abs/1706.03762"⟩ : PaperMetadata).url =
      "https://arxiv.org/abs/" ++ "1706.03762" :=
  sourceUrl_canonical.1 "1706.03762"
    (.ok [⟨some "Attention Is All You Need", ["Ashish Vaswani"], some "", none⟩]) _
    (by decide)

/-- **C5 counterexample.** A search entry whose `id` field holds an
old-style arXiv identifier (`hep-th/9901001`) yields
`sourceUrl = "https://arxiv.org/abs/"` — the bare base with no
identifier of the required shape appended — refuting the claim that
every produced record's url is the base followed by a
4-digit-dot-4-or-5-digit identifier. -/
theorem sourceUrl_c5_counterexample :
    (parseSearchEntry ⟨some "An old-style paper", [], some "1999-01-04T00:00:00Z",
        some "http://arxiv.org/abs/hep-th/9901001"⟩).url = "https://arxiv.org/abs/" ∧
    ¬ ∃ d : String, IdShape d.data ∧
      (parseSearchEntry ⟨some "An old-style paper", [], some "1999-01-04T00:00:00Z",
          some "http://arxiv.org/abs/hep-th/9901001"⟩).url =
        "https://arxiv.org/abs/" ++ d := by
  have hurl : (parseSearchEntry ⟨some "An old-style paper", [],
      some "1999-01-04T00:00:00Z", some "http://arxiv.org/abs/hep-th/9901001"⟩).url =
      "https://arxiv.org/abs/" := by decide
  refine ⟨hurl, ?_⟩
  rintro ⟨d, hshape, heq⟩
  rw [hurl] at heq
  have hdata := congrArg String.data heq
  rw [string_data_append] at hdata
  have hlen := congrArg List.length hdata
  rw [List.length_append] at hlen
  have hd : d.data.length = 0 := by omega
  obtain ⟨d1, d2, hid, hd1len, _, _, _⟩ := hshape
  have := congrArg List.length hid
  rw [hd, List.length_append, List.length_cons] at this
  omega

theorem searchGo_failure_throw (fetch : Nat → AttemptResult)
    (maxRetries attempt rem made : Nat) (ds : List Nat) (msg : String)
    (hf : fetch attempt = .failure msg)
    (hcond : (!isNetworkError msg || attempt == maxRetries) = true) :
    searchGo fetch maxRetries attempt (rem + 1) made ds =
      ⟨made + 1, ds.reverse, .thrown msg⟩ := by
  rw [searchGo, hf]
  dsimp only
  rw [if_pos hcond]

theorem searchGo_failure_cont (fetch : Nat → AttemptResult)
    (maxRetries attempt rem made : Nat) (ds : List Nat) (msg : String)
    (hf : fetch attempt = .failure msg)
    (hn : isNetworkError msg = true) (hne : attempt ≠ maxRetries) :
    searchGo fetch maxRetries attempt (rem + 1) made ds =
      searchGo fetch maxRetries (attempt + 1) rem (made + 1)
        ((2 ^ (attempt - 1) * 1000) :: ds) := by
  rw [searchGo, hf]
  dsimp only
  rw [if_neg (by simp [hn, hne])]

/-- **C1 (amended).** With `maxRetries = 3` and a fetch that fails with
a network-classified error on every attempt, exactly 3 attempts occur
and the last error is thrown only after the 3rd attempt; the delays
slept between attempts are 1000 ms then 2000 ms (`2^(attempt-1)`
seconds for attempts 1 and 2) — no third (4 s) delay is slept, because
the final attempt rethrows without sleeping
(`searchRetry_c1_counterexample` refutes the claimed 1 s, 2 s, 4 s
schedule). -/
theorem searchRetry_networkFailure (title : String) (fetch : Nat → AttemptResult)
    (msg : Nat → String)
    (hf : ∀ a, 1 ≤ a → a ≤ 3 → fetch a = .failure (msg a))
    (hn : ∀ a, 1 ≤ a → a ≤ 3 → isNetworkError (msg a) = true) :
    searchArxivByTitle title fetch 3 = ⟨3, [1000, 2000], .thrown (msg 3)⟩ :=
  calc searchArxivByTitle title fetch 3
      = searchGo fetch 3 1 3 0 [] := rfl
    _ = searchGo fetch 3 2 2 1 [1000] :=
        searchGo_failure_cont fetch 3 1 2 0 [] (msg 1)
          (hf 1 (by omega) (by omega)) (hn 1 (by omega) (by omega)) (by omega)
    _ = searchGo fetch 3 3 1 2 [2000, 1000] :=
        searchGo_failure_cont fetch 3 2 1 1 [1000] (msg 2)
          (hf 2 (by omega) (by omega)) (hn 2 (by omega) (by omega)) (by omega)
    _ = ⟨3, [1000, 2000], .thrown (msg 3)⟩ :=
        searchGo_failure_throw fetch 3 3 0 2 [2000, 1000] (msg 3)
          (hf 3 (by omega) (by omega)) (by simp)

/-- Witness for (amended) C1 with a concrete always-failing network
stub. -/
theorem searchRetry_networkFailure_witness :
    searchArxivByTitle "attention is all you need"
        (fun _ => .failure "ERR_NETWORK") 3 =
      ⟨3, [1000, 2000], .thrown "ERR_NETWORK"⟩ :=
  searchRetry_networkFailure "attention is all you need" _ (fun _ => "ERR_NETWORK")
    (fun _ _ _ => rfl)
    (fun _ _ _ => (by decide : isNetworkError "ERR_NETWORK" = true))

/-- **C1 counterexample.** With `maxRetries = 3` and every attempt
failing with a network error, the delays actually slept are
`[1000, 2000]` ms — not the `[1000, 2000, 4000]` (1 s, 2 s, 4 s)
schedule the claim states: no delay follows the final attempt. -/
theorem searchRetry_c1_counterexample :
    (searchArxivByTitle "q" (fun _ => .failure "ERR_NETWORK") 3).delaysMs = [1000, 2000] ∧
    (searchArxivByTitle "q" (fun _ => .failure "ERR_NETWORK") 3).delaysMs ≠
      [1000, 2000, 4000] := by
  constructor
  · decide
  · decide

/-- **C2.** For every query and every `maxRetries ≥ 1`, a first attempt
failing with a non-network-classified error (e.g. a parse error) is
rethrown immediately: exactly one attempt occurs and no backoff delay
is slept. -/
theorem searchNoRetry_nonNetworkError (title : String) (fetch : Nat → AttemptResult)
    (maxRetries : Nat) (msg : String) (hmr : 1 ≤ maxRetries)
    (hf : fetch 1 = .failure msg) (hn : isNetworkError msg = false) :
    searchArxivByTitle title fetch maxRetries = ⟨1, [], .thrown msg⟩ := by
  obtain ⟨rem, hrem⟩ : ∃ rem, maxRetries = rem + 1 := ⟨maxRetries - 1, by omega⟩
  rw [searchArxivByTitle, hrem]
  exact searchGo_failure_throw fetch (rem + 1) 1 rem 0 [] msg hf (by rw [hn]; rfl)

/-- Witness for C2 with a concrete parse-style error on attempt 1. -/
theorem searchNoRetry_nonNetworkError_witness :
    searchArxivByTitle "attention is all you need"
        (fun _ => .failure "Unexpected end of XML input") 3 =
      ⟨1, [], .thrown "Unexpected end of XML input"⟩ :=
  searchNoRetry_nonNetworkError "attention is all you need" _ 3
    "Unexpected end of XML input" (by omega) rfl (by decide)

theorem isWsJs_not_digit {c : Char} (h : isWsJs c = true) : c.isDigit = false := by
  rw [isWsJs] at h
  simp only [Bool.or_eq_true, beq_iff_eq] at h
  rcases h with ((((h | h) | h) | h) | h) | h <;> subst h <;> decide

theorem eatLit_append_ws {w : List Char} (hw : ∀ c ∈ w, isWsJs c = true) :
    ∀ (p l : List Char), (∀ c ∈ p, isWsJs c = false) →
      eatLit p (l ++ w) = (eatLit p l).map (· ++ w)
  | [], l, _ => by simp [eatLit]
  | q :: ps, [], hp => by
    rw [List.nil_append]
    cases w with
    | nil => rfl
    | cons wc ws' =>
      have hne : wc ≠ q := by
        intro he
        have h1 := hw wc (by simp)
        have h2 := hp q (by simp)
        rw [he, h2] at h1
        cases h1
      have hstep : eatLit (q :: ps) (wc :: ws') = none := by
        rw [show eatLit (q :: ps) (wc :: ws') =
          (if wc = q then eatLit ps ws' else none) from rfl, if_neg hne]
      rw [hstep]
      rfl
  | q :: ps, c :: cs, hp => by
    rw [List.cons_append, eatLit, eatLit]
    by_cases hc : c = q
    · rw [if_pos hc, if_pos hc]
      exact eatLit_append_ws hw ps cs (fun x hx => hp x (List.mem_cons_of_mem _ hx))
    · rw [if_neg hc, if_neg hc]
      rfl

theorem eatDigits_append_ws {w : List Char} (hw : ∀ c ∈ w, isWsJs c = true) :
    ∀ (n : Nat) (l : List Char),
      eatDigits n (l ++ w) = (eatDigits n l).map (fun p => (p.1, p.2 ++ w))
  | 0, l => by simp [eatDigits]
  | n + 1, [] => by
    rw [List.nil_append]
    cases w with
    | nil => rfl
    | cons wc ws' =>
      have hstep : eatDigits (n + 1) (wc :: ws') = none := by
        rw [show eatDigits (n + 1) (wc :: ws') =
          (if wc.isDigit then
            (match eatDigits n ws' with
             | some (ds, r) => some (wc :: ds, r)
             | none => none)
           else none) from rfl]
        rw [if_neg (by simp [isWsJs_not_digit (hw wc (by simp))])]
      rw [hstep]
      rfl
  | n + 1, c :: cs => by
    rw [List.cons_append, eatDigits, eatDigits]
    by_cases hc : c.isDigit = true
    · rw [if_pos hc, if_pos hc, eatDigits_append_ws hw n cs]
      cases eatDigits n cs with
      | none => rfl
      | some p =>
        obtain ⟨ds, r⟩ := p
        rfl
    · rw [if_neg hc, if_neg hc]
      rfl

theorem eatSeg_append_ws {w : List Char} (hw : ∀ c ∈ w, isWsJs c = true) (l : List Char) :
    eatSeg (l ++ w) = (eatSeg l).map (· ++ w) := by
  rw [eatSeg, eatSeg]
  rw [eatLit_append_ws hw "abs".data l (by decide)]
  cases eatLit "abs".data l with
  | some r => rfl
  | none =>
    rw [eatLit_append_ws hw "pdf".data l (by decide)]
    cases eatLit "pdf".data l with
    | some r => rfl
    | none =>
      exact eatLit_append_ws hw "html".data l (by decide)

theorem matchIdAt_append_ws {w : List Char} (hw : ∀ c ∈ w, isWsJs c = true)
    (l : List Char) : matchIdAt (l ++ w) = matchIdAt l := by
  rw [matchIdAt, matchIdAt]
  rw [eatLit_append_ws hw "arxiv.org/".data l (by decide)]
  cases eatLit "arxiv.org/".data l with
  | none => rfl
  | some l1 =>
    simp only [Option.map_some', Option.some_bind]
    rw [eatSeg_append_ws hw l1]
    cases eatSeg l1 with
    | none => rfl
    | some l2 =>
      simp only [Option.map_some', Option.some_bind]
      rw [eatLit_append_ws hw "/".data l2 (by decide)]
      cases eatLit "/".data l2 with
      | none => rfl
      | some l3 =>
        simp only [Option.map_some', Option.some_bind]
        rw [eatDigits_append_ws hw 4 l3]
        cases eatDigits 4 l3 with
        | none => rfl
        | some p4 =>
          obtain ⟨d1, l4⟩ := p4
          simp only [Option.map_some', Option.some_bind]
          rw [eatLit_append_ws hw ".".data l4 (by decide)]
          cases eatLit ".".data l4 with
          | none => rfl
          | some l5 =>
            simp only [Option.map_some', Option.some_bind]
            rw [eatDigits_append_ws hw 5 l5]
            cases eatDigits 5 l5 with
            | some p5 =>
              obtain ⟨d2, r⟩ := p5
              rfl
            | none =>
              simp only [Option.map_none']
              rw [eatDigits_append_ws hw 4 l5]
              cases eatDigits 4 l5 with
              | some p4' =>
                obtain ⟨d2, r⟩ := p4'
                rfl
              | none => rfl

theorem matchIdAt_ws_head {c : Char} (cs : List Char) (h : isWsJs c = true) :
    matchIdAt (c :: cs) = none := by
  have hne : c ≠ 'a' := by
    intro he
    rw [he] at h
    exact absurd h (by decide)
  have hstep : eatLit "arxiv.org/".data (c :: cs) = none := by
    rw [show eatLit "arxiv.org/".data (c :: cs) =
      (if c = 'a' then eatLit "rxiv.org/".data cs else none) from rfl, if_neg hne]
  rw [matchIdAt, hstep]
  rfl

theorem scanArxiv_ws_all {w : List Char} (hw : ∀ c ∈ w, isWsJs c = true) :
    scanArxiv w = none := by
  induction w with
  | nil => rfl
  | cons c cs ih =>
    rw [scanArxiv, matchIdAt_ws_head cs (hw c (by simp))]
    exact ih (fun x hx => hw x (List.mem_cons_of_mem _ hx))

theorem scanArxiv_wsPre {w : List Char} (hw : ∀ c ∈ w, isWsJs c = true) :
    ∀ l, scanArxiv (w ++ l) = scanArxiv l := by
  induction w with
  | nil => intro l; rfl
  | cons c cs ih =>
    intro l
    rw [List.cons_append, scanArxiv,
      matchIdAt_ws_head (cs ++ l) (hw c (by simp))]
    exact ih (fun x hx => hw x (List.mem_cons_of_mem _ hx)) l

theorem scanArxiv_wsPost {w : List Char} (hw : ∀ c ∈ w, isWsJs c = true) :
    ∀ l, scanArxiv (l ++ w) = scanArxiv l
  | [] => by
    rw [List.nil_append, scanArxiv_ws_all hw]
    rfl
  | c :: cs => by
    rw [List.cons_append, scanArxiv, scanArxiv]
    rw [show matchIdAt (c :: (cs ++ w)) = matchIdAt (c :: cs) from by
      rw [show (c :: (cs ++ w)) = (c :: cs) ++ w from rfl]
      exact matchIdAt_append_ws hw (c :: cs)]
    cases matchIdAt (c :: cs) with
    | some r => rfl
    | none => exact scanArxiv_wsPost hw cs

/-- Trimming the input never changes what the extractor finds: the
pattern's characters are all non-whitespace, so a match neither starts
in nor extends into the trimmed margins. -/
theorem extractArxivId_jsTrim (s : String) :
    extractArxivId (jsTrim s) = extractArxivId s := by
  rw [extractArxivId, extractArxivId]
  have hscan : scanArxiv (jsTrim s).data = scanArxiv s.data := by
    show scanArxiv (trimL s.data) = scanArxiv s.data
    obtain ⟨w2, hw2, hws2⟩ := trimEndL_decomp (s.data.dropWhile isWsJs)
    have h1 : scanArxiv (trimL s.data) = scanArxiv (s.data.dropWhile isWsJs) := by
      rw [trimL]
      conv_rhs => rw [hw2]
      rw [scanArxiv_wsPost hws2]
    have h2 : scanArxiv s.data = scanArxiv (s.data.dropWhile isWsJs) := by
      conv_lhs => rw [← List.takeWhile_append_dropWhile (p := isWsJs) (l := s.data)]
      exact scanArxiv_wsPre (fun c hc => List.mem_takeWhile_imp hc) _
    rw [h1, h2]
  rw [hscan]

/-- **C3.** An input in which the identifier extractor finds an arXiv
identifier takes the fast path: the metadata fetcher is called exactly
once with that identifier, the free-text search client and the ranker
are never invoked, and in particular input
`"https://arxiv.org/abs/1706.03762"` yields (whenever the fetch
returns a record) a record with
`sourceUrl = "https://arxiv.org/abs/1706.03762"`, without any
search. -/
theorem clipboardFlow_fastPath :
    (∀ (clip id : String) (resp : FetchOutcome), extractArxivId clip = some id →
        (clipboardFlow clip resp).1 = [CoreCall.fetchMetadata id]) ∧
    (∀ (clip id : String) (resp : FetchOutcome), extractArxivId clip = some id →
        ∀ q, ¬ CoreCall.search q ∈ (clipboardFlow clip resp).1 ∧
          ¬ CoreCall.rank q ∈ (clipboardFlow clip resp).1) ∧
    (∀ (resp : FetchOutcome) (m : PaperMetadata),
        (clipboardFlow "https://arxiv.org/abs/1706.03762" resp).2 = some m →
        m.url = "https://arxiv.org/abs/1706.03762") := by
  have hmain : ∀ (clip id : String) (resp : FetchOutcome),
      extractArxivId clip = some id →
      clipboardFlow clip resp =
        ([CoreCall.fetchMetadata id], fetchArxivMetadata id resp) := by
    intro clip id resp h
    have htrim : extractArxivId (jsTrim clip) = some id := by
      rw [extractArxivId_jsTrim, h]
    have hne : ¬ jsTrim clip = "" := by
      intro h0
      rw [h0, show extractArxivId "" = none from rfl] at htrim
      cases htrim
    rw [clipboardFlow, if_neg hne, if_pos (by rw [h]; rfl), htrim]
  refine ⟨?_, ?_, ?_⟩
  · intro clip id resp h
    rw [hmain clip id resp h]
  · intro clip id resp h q
    rw [hmain clip id resp h]
    constructor <;> simp
  · intro resp m h
    have hx : extractArxivId "https://arxiv.org/abs/1706.03762" = some "1706.03762" := by
      decide
    rw [hmain _ _ resp hx] at h
    simp only at h
    rw [fetchArxivMetadata_url _ _ _ h]
    rfl

/-- Witness for C3 at the concrete clipboard input. -/
theorem clipboardFlow_fastPath_witness :
    (clipboardFlow "https://arxiv.org/abs/1706.03762" FetchOutcome.netError).1 =
      [CoreCall.fetchMetadata "1706.03762"] :=
  clipboardFlow_fastPath.1 "https://arxiv.org/abs/1706.03762" "1706.03762"
    FetchOutcome.netError (by decide)

end ObsidianPapers
